import Mathlib

/-!
# Verification of the voxel-world core (chunk store, greedy mesher, raycaster)

Shallow embedding of the repository's simulation core:

* `src/block.rs`   — the `Block` material enum;
* `src/chunk.rs`   — chunk-local coordinates (`in_chunk`, `chunk_coord`, `idx`)
  and the fixed 16×16×16 `Chunk` storage;
* `src/world.rs`   — the sparse `World` chunk map (`get_block`, `set_block`,
  `mark_dirty`, `is_solid`, `raycast_first_solid`);
* `src/voxel_mesher.rs` — the greedy surface mesher (`mesh_chunk`, `push_quad`);
* `src/game.rs`    — the chunk streaming window (`maintain_chunk_window`).

Modelling conventions:

* Rust `i32` values are modelled as `Int`; the arithmetic performed by the
  translated functions stays far from the `i32` boundaries, and the claims
  whose statements are about 32-bit inputs carry explicit range hypotheses.
* Rust `Vec<B>` block storage is modelled as a total function `Nat → B`
  together with the proved fact (claim C9) that every index the code ever
  uses is `< 4096`, i.e. inside the backing vector of length `CHUNK_VOL`.
* The `HashMap<ChunkPos, Chunk>` is modelled as `ChunkPos → Option Chunk`
  (lookup), with insertion/removal as pointwise function update — the
  semantic content of a hash map.
* `f32` values in the raycaster are modelled as exact rationals extended
  with `+∞` (`F32`); every intermediate value arising in the evaluated
  scenario is exactly representable in binary32, so the model agrees with
  IEEE-754 single precision on that run.
-/

/-! ## Block (src/block.rs) -/

inductive Block where
  | Air
  | Dirt
  | Stone
deriving DecidableEq, Repr

/-- `impl Default for Block` — the default block is `Air`. -/
def Block.default : Block := Block.Air

/-! ## Chunk coordinates (src/chunk.rs) -/

/-- `pub const CHUNK_SIZE: i32 = 16`. -/
def CHUNK_SIZE : Int := 16

/-- `pub const CHUNK_VOL: usize = 16*16*16`. -/
def CHUNK_VOL : Nat := 4096

/-- `ChunkPos { cx, cy, cz }` — a chunk-grid coordinate. -/
structure ChunkPos where
  cx : Int
  cy : Int
  cz : Int
deriving DecidableEq, Repr

/-- `in_chunk(v) = v.rem_euclid(CHUNK_SIZE)`: Rust's `rem_euclid` with a
positive divisor is the Euclidean modulo, i.e. Lean's `Int.emod` (`%`). -/
def in_chunk (v : Int) : Int := v % CHUNK_SIZE

/-- `chunk_coord(v) = v.div_euclid(CHUNK_SIZE)`: Rust's `div_euclid` with a
positive divisor is the Euclidean division, i.e. Lean's `Int.ediv` (`/`). -/
def chunk_coord (v : Int) : Int := v / CHUNK_SIZE

/-- Rust's `as usize` cast of an `i32`, which wraps modulo `2^64`. -/
def usize_of (v : Int) : Nat := (v % (2 ^ 64 : Int)).toNat

/-- `idx(lx, ly, lz) = (lx as usize) + (lz as usize)*16 + (ly as usize)*256`,
the linear index into a chunk's block vector (x fastest, then z, then y). -/
def idx (lx ly lz : Int) : Nat :=
  usize_of lx + usize_of lz * 16 + usize_of ly * 256

/-! ## Chunk (src/chunk.rs) -/

/-- `Chunk<B>`: position, the 4096-entry block vector (modelled as a total
function on indices; claim C9 proves every index the code uses is `< 4096`),
and the dirty flag. -/
structure Chunk where
  pos : ChunkPos
  blocks : Nat → Block
  dirty : Bool

/-- `Chunk::new(pos)`: all blocks default (`Air`), `dirty = true`. -/
def Chunk.new (pos : ChunkPos) : Chunk :=
  { pos := pos, blocks := fun _ => Block.default, dirty := true }

/-- `Chunk::get_local(lx, ly, lz) = blocks[idx(lx, ly, lz)]`. -/
def Chunk.get_local (c : Chunk) (lx ly lz : Int) : Block :=
  c.blocks (idx lx ly lz)

/-- `Chunk::set_local(lx, ly, lz, b)`: write `blocks[idx(lx,ly,lz)] = b` and
set `dirty = true`. -/
def Chunk.set_local (c : Chunk) (lx ly lz : Int) (b : Block) : Chunk :=
  { pos := c.pos
    blocks := fun i => if i = idx lx ly lz then b else c.blocks i
    dirty := true }

/-! ## World (src/world.rs) -/

/-- `World { age_ticks, chunks }` with the `HashMap` modelled as a lookup
function `ChunkPos → Option Chunk`. -/
structure World where
  age_ticks : Nat
  chunks : ChunkPos → Option Chunk

/-- `World::mark_dirty(cp)`: if the chunk is loaded, set its dirty flag;
no-op if absent. -/
def World.mark_dirty (w : World) (cp : ChunkPos) : World :=
  match w.chunks cp with
  | some ch =>
      { w with chunks := fun p => if p = cp then some { ch with dirty := true } else w.chunks p }
  | none => w

/-- `World::get_block(x, y, z)`: split into chunk and local coordinates;
a missing chunk reads as `Air`. -/
def World.get_block (w : World) (x y z : Int) : Block :=
  let cp : ChunkPos := ⟨chunk_coord x, chunk_coord y, chunk_coord z⟩
  let lx := in_chunk x
  let ly := in_chunk y
  let lz := in_chunk z
  match w.chunks cp with
  | some ch => ch.get_local lx ly lz
  | none => Block.Air

/-- One boundary-dirtying step of `set_block`: the source repeats
`if l == 0 { mark_dirty(neg) } else if l == CHUNK_SIZE - 1 { mark_dirty(pos) }`
once per axis with the corresponding neighbor positions. -/
def World.mark_boundary (w : World) (l : Int) (pneg ppos : ChunkPos) : World :=
  if l = 0 then w.mark_dirty pneg
  else if l = CHUNK_SIZE - 1 then w.mark_dirty ppos
  else w

/-- `World::set_block(x, y, z, b) -> bool`: create the owning chunk if absent
(`get_or_create_chunk`), `set_local` the value (which sets the owner dirty),
mark boundary neighbors dirty when the local coordinate is 0 or 15 on an
axis, and return `true`. -/
def World.set_block (w : World) (x y z : Int) (b : Block) : World × Bool :=
  let cx := chunk_coord x
  let cy := chunk_coord y
  let cz := chunk_coord z
  let lx := in_chunk x
  let ly := in_chunk y
  let lz := in_chunk z
  let cp : ChunkPos := ⟨cx, cy, cz⟩
  let ch := match w.chunks cp with
    | some c => c
    | none => Chunk.new cp
  let ch2 := ch.set_local lx ly lz b
  let w1 : World := { w with chunks := fun p => if p = cp then some ch2 else w.chunks p }
  let w2 := w1.mark_boundary lx ⟨cx - 1, cy, cz⟩ ⟨cx + 1, cy, cz⟩
  let w3 := w2.mark_boundary ly ⟨cx, cy - 1, cz⟩ ⟨cx, cy + 1, cz⟩
  let w4 := w3.mark_boundary lz ⟨cx, cy, cz - 1⟩ ⟨cx, cy, cz + 1⟩
  (w4, true)

/-- `World::is_solid(x, y, z) = get_block(x, y, z) != Block::Air`. -/
def World.is_solid (w : World) (x y z : Int) : Bool :=
  w.get_block x y z != Block.Air

/-- A world with no chunks loaded (the chunk map of `World::new()` before any
write). -/
def wEmpty : World := { age_ticks := 0, chunks := fun _ => none }

/-! ## Claim C3 — coordinate round-trip -/

/-- **C3.** For every 32-bit integer `v`, `chunk_coord v * 16 + in_chunk v = v`,
`in_chunk v ∈ [0, 16)`, and `chunk_coord` is floor division by 16 (`Int.fdiv`,
correct for negative `v`), `in_chunk` a Euclidean (always non-negative)
modulo. -/
theorem coordinate_roundtrip (v : Int) (h1 : -(2 ^ 31) ≤ v) (h2 : v < 2 ^ 31) :
    chunk_coord v * 16 + in_chunk v = v ∧
    0 ≤ in_chunk v ∧ in_chunk v < 16 ∧
    chunk_coord v = Int.fdiv v 16 := by
  refine ⟨?_, ?_, ?_, ?_⟩
  · unfold chunk_coord in_chunk CHUNK_SIZE; omega
  · unfold in_chunk CHUNK_SIZE; omega
  · unfold in_chunk CHUNK_SIZE; omega
  · unfold chunk_coord CHUNK_SIZE
    exact (Int.fdiv_eq_ediv v (by norm_num)).symm

/-- Witness for C3 at the negative input `v = -33`
(`chunk_coord (-33) = -3`, `in_chunk (-33) = 15`). -/
theorem coordinate_roundtrip_witness :
    (-(2 ^ 31) : Int) ≤ -33 ∧ (-33 : Int) < 2 ^ 31 ∧
    (chunk_coord (-33) * 16 + in_chunk (-33) = -33 ∧
     0 ≤ in_chunk (-33) ∧ in_chunk (-33) < 16 ∧
     chunk_coord (-33) = Int.fdiv (-33) 16) :=
  ⟨by norm_num, by norm_num, coordinate_roundtrip (-33) (by norm_num) (by norm_num)⟩

/-! ## Claim C9 — linear-index safety -/

/-- **C9.** The local coordinates that reach the linear-index computation are
the `in_chunk` values (every public operation — `get_block`, `set_block`,
`is_solid`, the mesher and the raycaster — reads or writes chunk storage only
through `World.get_block`/`World.set_block`, which by definition access the
block vector at `idx (in_chunk x) (in_chunk y) (in_chunk z)`).  For every
integer input those locals lie in `[0, 16)` and the resulting index is
`< 4096 = CHUNK_VOL`, so the out-of-bounds panic branch of the `Vec` access
is unreachable from any public entry point. -/
theorem local_index_in_bounds (x y z : Int) :
    (0 ≤ in_chunk x ∧ in_chunk x < 16) ∧
    (0 ≤ in_chunk y ∧ in_chunk y < 16) ∧
    (0 ≤ in_chunk z ∧ in_chunk z < 16) ∧
    idx (in_chunk x) (in_chunk y) (in_chunk z) < CHUNK_VOL := by
  unfold idx usize_of in_chunk CHUNK_SIZE CHUNK_VOL
  omega

/-! ## Claim C4 — set/get round-trip -/

/-- `idx` restricted to the locals produced by `in_chunk` is injective
(uniqueness of base-16 digits). -/
theorem idx_in_chunk_inj {x y z x' y' z' : Int}
    (h : idx (in_chunk x) (in_chunk y) (in_chunk z)
       = idx (in_chunk x') (in_chunk y') (in_chunk z')) :
    in_chunk x = in_chunk x' ∧ in_chunk y = in_chunk y' ∧ in_chunk z = in_chunk z' := by
  unfold idx usize_of in_chunk CHUNK_SIZE at *
  omega

/-- Chunk plus local coordinates determine the global coordinate. -/
theorem coord_ext {x x' : Int} (hc : chunk_coord x = chunk_coord x')
    (hl : in_chunk x = in_chunk x') : x = x' := by
  unfold chunk_coord in_chunk CHUNK_SIZE at *
  omega

/-- `mark_dirty` changes no chunk other than its target. -/
theorem mark_dirty_other (w : World) (cp p : ChunkPos) (h : p ≠ cp) :
    (w.mark_dirty cp).chunks p = w.chunks p := by
  unfold World.mark_dirty
  cases hw : w.chunks cp with
  | none => rfl
  | some ch => simp [hw, h]

/-- `mark_dirty` only toggles the dirty flag: position and block data of
every chunk are preserved. -/
theorem mark_dirty_blocks (w : World) (cp p : ChunkPos) :
    Option.map (fun c => (c.pos, c.blocks)) ((w.mark_dirty cp).chunks p)
      = Option.map (fun c => (c.pos, c.blocks)) (w.chunks p) := by
  unfold World.mark_dirty
  cases hw : w.chunks cp with
  | none => rfl
  | some ch =>
    by_cases hp : p = cp
    · subst hp; simp [hw]
    · simp [hw, hp]

/-- `mark_dirty` preserves which chunks are loaded. -/
theorem mark_dirty_isSome (w : World) (cp p : ChunkPos) :
    ((w.mark_dirty cp).chunks p).isSome = (w.chunks p).isSome := by
  have h := mark_dirty_blocks w cp p
  cases h1 : (w.mark_dirty cp).chunks p <;> cases h2 : w.chunks p <;>
    simp [h1, h2] at h ⊢

/-- `mark_boundary` changes no chunk other than its two candidate targets. -/
theorem mark_boundary_other (w : World) (l : Int) (pneg ppos p : ChunkPos)
    (h1 : p ≠ pneg) (h2 : p ≠ ppos) :
    (w.mark_boundary l pneg ppos).chunks p = w.chunks p := by
  unfold World.mark_boundary
  split
  · exact mark_dirty_other w pneg p h1
  · split
    · exact mark_dirty_other w ppos p h2
    · rfl

/-- `mark_boundary` only toggles dirty flags. -/
theorem mark_boundary_blocks (w : World) (l : Int) (pneg ppos p : ChunkPos) :
    Option.map (fun c => (c.pos, c.blocks)) ((w.mark_boundary l pneg ppos).chunks p)
      = Option.map (fun c => (c.pos, c.blocks)) (w.chunks p) := by
  unfold World.mark_boundary
  split
  · exact mark_dirty_blocks w pneg p
  · split
    · exact mark_dirty_blocks w ppos p
    · rfl

/-- `mark_boundary` preserves which chunks are loaded. -/
theorem mark_boundary_isSome (w : World) (l : Int) (pneg ppos p : ChunkPos) :
    ((w.mark_boundary l pneg ppos).chunks p).isSome = (w.chunks p).isSome := by
  unfold World.mark_boundary
  split
  · exact mark_dirty_isSome w pneg p
  · split
    · exact mark_dirty_isSome w ppos p
    · rfl

/-- The chunk map of `set_block w x y z b` at the owning position: the
owner holds the updated chunk (boundary marks target only neighbor
positions, which differ from the owner). -/
theorem set_block_chunks_owner (w : World) (x y z : Int) (b : Block) :
    (World.set_block w x y z b).1.chunks ⟨chunk_coord x, chunk_coord y, chunk_coord z⟩
      = some ((match w.chunks ⟨chunk_coord x, chunk_coord y, chunk_coord z⟩ with
               | some c => c
               | none => Chunk.new ⟨chunk_coord x, chunk_coord y, chunk_coord z⟩).set_local
                 (in_chunk x) (in_chunk y) (in_chunk z) b) := by
  unfold World.set_block
  rw [mark_boundary_other, mark_boundary_other, mark_boundary_other]
  · simp
  all_goals (simp only [ne_eq, ChunkPos.mk.injEq, not_and]; intro hx; omega)

/-- **C4.** `set_block` always returns `true`, and a subsequent `get_block`
at the same coordinate returns the written block. -/
theorem set_then_get (w : World) (x y z : Int) (b : Block) :
    (World.set_block w x y z b).2 = true ∧
    World.get_block (World.set_block w x y z b).1 x y z = b := by
  refine ⟨rfl, ?_⟩
  unfold World.get_block
  dsimp only
  rw [set_block_chunks_owner]
  simp [Chunk.set_local, Chunk.get_local]

/-! ## Claim C8 — reads in missing chunks yield Air -/

/-- **C8.** `get_block` is total (it is a Lean function `World → Int → Int →
Int → Block`, defined for every input); when the owning chunk is not in the
chunk map it returns `Air`. -/
theorem get_block_absent_air (w : World) (x y z : Int)
    (h : w.chunks ⟨chunk_coord x, chunk_coord y, chunk_coord z⟩ = none) :
    World.get_block w x y z = Block.Air := by
  unfold World.get_block
  dsimp only
  rw [h]

/-- Witness for C8: the empty world at `(100, -7, 3)`. -/
theorem get_block_absent_air_witness :
    wEmpty.chunks ⟨chunk_coord 100, chunk_coord (-7), chunk_coord 3⟩ = none ∧
    World.get_block wEmpty 100 (-7) 3 = Block.Air :=
  ⟨rfl, get_block_absent_air wEmpty 100 (-7) 3 rfl⟩

/-! ## Claim C10 — frame property of set_block -/

/-- Equal position/blocks data (ignoring dirty flags) gives equal `isSome`. -/
theorem optmap_isSome {o1 o2 : Option Chunk}
    (h : Option.map (fun c => (c.pos, c.blocks)) o1
       = Option.map (fun c => (c.pos, c.blocks)) o2) :
    o1.isSome = o2.isSome := by
  cases o1 <;> cases o2 <;> simp_all

/-- `set_block` preserves position and block data of every chunk other than
the owner (only dirty flags there may change). -/
theorem set_block_chunks_other (w : World) (x y z : Int) (b : Block)
    (p : ChunkPos) (hp : p ≠ ⟨chunk_coord x, chunk_coord y, chunk_coord z⟩) :
    Option.map (fun c => (c.pos, c.blocks)) ((World.set_block w x y z b).1.chunks p)
      = Option.map (fun c => (c.pos, c.blocks)) (w.chunks p) := by
  unfold World.set_block
  dsimp only
  rw [mark_boundary_blocks, mark_boundary_blocks, mark_boundary_blocks]
  simp [hp]

/-- `get_block` only depends on the presence and block data of the owning
chunk. -/
theorem get_block_congr (w1 w2 : World) (x y z : Int)
    (h : Option.map (fun c => (c.pos, c.blocks))
           (w1.chunks ⟨chunk_coord x, chunk_coord y, chunk_coord z⟩)
       = Option.map (fun c => (c.pos, c.blocks))
           (w2.chunks ⟨chunk_coord x, chunk_coord y, chunk_coord z⟩)) :
    World.get_block w1 x y z = World.get_block w2 x y z := by
  unfold World.get_block
  dsimp only
  cases h1 : w1.chunks ⟨chunk_coord x, chunk_coord y, chunk_coord z⟩ <;>
    cases h2 : w2.chunks ⟨chunk_coord x, chunk_coord y, chunk_coord z⟩ <;>
      rw [h1, h2] at h <;> simp_all
  unfold Chunk.get_local
  rw [h.2]

/-- **C10.** `set_block w x y z b` changes the stored block value at no
coordinate other than `(x, y, z)`; apart from block data only dirty flags
change: every chunk other than the owner keeps its position and block data
unchanged. -/
theorem set_block_frame (w : World) (x y z : Int) (b : Block) :
    (∀ x' y' z' : Int, ¬(x' = x ∧ y' = y ∧ z' = z) →
        World.get_block (World.set_block w x y z b).1 x' y' z'
          = World.get_block w x' y' z') ∧
    (∀ p : ChunkPos, p ≠ ⟨chunk_coord x, chunk_coord y, chunk_coord z⟩ →
        Option.map (fun c => (c.pos, c.blocks)) ((World.set_block w x y z b).1.chunks p)
          = Option.map (fun c => (c.pos, c.blocks)) (w.chunks p)) := by
  refine ⟨?_, fun p hp => set_block_chunks_other w x y z b p hp⟩
  intro x' y' z' hne
  by_cases hcp : (⟨chunk_coord x', chunk_coord y', chunk_coord z'⟩ : ChunkPos)
      = ⟨chunk_coord x, chunk_coord y, chunk_coord z⟩
  · -- same owning chunk: the write hits a different linear index
    have hidx : idx (in_chunk x') (in_chunk y') (in_chunk z')
        ≠ idx (in_chunk x) (in_chunk y) (in_chunk z) := by
      intro hEq
      obtain ⟨hx, hy, hz⟩ := idx_in_chunk_inj hEq
      obtain ⟨hcx, hcy, hcz⟩ := ChunkPos.mk.injEq .. ▸ hcp
      exact hne ⟨coord_ext hcx hx, coord_ext hcy hy, coord_ext hcz hz⟩
    unfold World.get_block
    dsimp only
    rw [hcp, set_block_chunks_owner]
    cases hw : w.chunks ⟨chunk_coord x, chunk_coord y, chunk_coord z⟩ with
    | some c => simp [Chunk.set_local, Chunk.get_local, hidx]
    | none => simp [Chunk.set_local, Chunk.get_local, Chunk.new, hidx, Block.default]
  · exact get_block_congr _ _ x' y' z' (set_block_chunks_other w x y z b _ hcp)

/-- Witness for C10: writing `Stone` at `(0,0,0)` in the empty world leaves
the block at `(1,0,0)` (same chunk) and at `(20,0,0)` (other chunk)
unchanged (`Air`). -/
theorem set_block_frame_witness :
    World.get_block (World.set_block wEmpty 0 0 0 Block.Stone).1 1 0 0 = Block.Air ∧
    World.get_block (World.set_block wEmpty 0 0 0 Block.Stone).1 20 0 0 = Block.Air := by
  constructor
  · rw [(set_block_frame wEmpty 0 0 0 Block.Stone).1 1 0 0 (by simp)]
    rfl
  · rw [(set_block_frame wEmpty 0 0 0 Block.Stone).1 20 0 0 (by simp)]
    rfl

/-! ## Claim C5 — dirty marking on boundary writes -/

/-- Mark the dirty flag of an optional chunk (the effect of `mark_dirty` on
a loaded chunk; `none` stays `none`, i.e. absent neighbors are not created). -/
def dirtied (o : Option Chunk) : Option Chunk :=
  o.map (fun ch => { ch with dirty := true })

/-- `mark_dirty` at its target: loaded chunks get `dirty = true`, absent
chunks stay absent. -/
theorem mark_dirty_self (w : World) (cp : ChunkPos) :
    (w.mark_dirty cp).chunks cp = dirtied (w.chunks cp) := by
  unfold World.mark_dirty dirtied
  cases hw : w.chunks cp <;> simp [hw]


/-- `mark_boundary` at its positive target when the local coordinate is 15. -/
theorem mark_boundary_pos_self (w : World) (l : Int) (pneg ppos : ChunkPos)
    (h0 : l ≠ 0) (h15 : l = CHUNK_SIZE - 1) :
    (w.mark_boundary l pneg ppos).chunks ppos = dirtied (w.chunks ppos) := by
  unfold World.mark_boundary
  rw [if_neg h0, if_pos h15, mark_dirty_self]

/-- `mark_boundary` at its negative target when the local coordinate is 0. -/
theorem mark_boundary_neg_self (w : World) (l : Int) (pneg ppos : ChunkPos)
    (h0 : l = 0) :
    (w.mark_boundary l pneg ppos).chunks pneg = dirtied (w.chunks pneg) := by
  unfold World.mark_boundary
  rw [if_pos h0, mark_dirty_self]

/-- **C5.** After `set_block x y z b`: the owning chunk is loaded and dirty;
for each axis whose local coordinate is 15 the positive neighbor — and for
local coordinate 0 the negative neighbor — is dirty-marked exactly when it
was already loaded (`dirtied` maps `none` to `none`: absent neighbors are
not created); and no chunk other than the owner is created or removed. -/
theorem set_block_dirty_marks (w : World) (x y z : Int) (b : Block) :
    (∃ ch, (World.set_block w x y z b).1.chunks
        ⟨chunk_coord x, chunk_coord y, chunk_coord z⟩ = some ch ∧ ch.dirty = true) ∧
    (in_chunk x = 15 → (World.set_block w x y z b).1.chunks
        ⟨chunk_coord x + 1, chunk_coord y, chunk_coord z⟩
      = dirtied (w.chunks ⟨chunk_coord x + 1, chunk_coord y, chunk_coord z⟩)) ∧
    (in_chunk x = 0 → (World.set_block w x y z b).1.chunks
        ⟨chunk_coord x - 1, chunk_coord y, chunk_coord z⟩
      = dirtied (w.chunks ⟨chunk_coord x - 1, chunk_coord y, chunk_coord z⟩)) ∧
    (in_chunk y = 15 → (World.set_block w x y z b).1.chunks
        ⟨chunk_coord x, chunk_coord y + 1, chunk_coord z⟩
      = dirtied (w.chunks ⟨chunk_coord x, chunk_coord y + 1, chunk_coord z⟩)) ∧
    (in_chunk y = 0 → (World.set_block w x y z b).1.chunks
        ⟨chunk_coord x, chunk_coord y - 1, chunk_coord z⟩
      = dirtied (w.chunks ⟨chunk_coord x, chunk_coord y - 1, chunk_coord z⟩)) ∧
    (in_chunk z = 15 → (World.set_block w x y z b).1.chunks
        ⟨chunk_coord x, chunk_coord y, chunk_coord z + 1⟩
      = dirtied (w.chunks ⟨chunk_coord x, chunk_coord y, chunk_coord z + 1⟩)) ∧
    (in_chunk z = 0 → (World.set_block w x y z b).1.chunks
        ⟨chunk_coord x, chunk_coord y, chunk_coord z - 1⟩
      = dirtied (w.chunks ⟨chunk_coord x, chunk_coord y, chunk_coord z - 1⟩)) ∧
    (∀ p : ChunkPos, p ≠ ⟨chunk_coord x, chunk_coord y, chunk_coord z⟩ →
        ((World.set_block w x y z b).1.chunks p).isSome = (w.chunks p).isSome) := by
  refine ⟨⟨_, set_block_chunks_owner w x y z b, rfl⟩, ?_, ?_, ?_, ?_, ?_, ?_, ?_⟩
  · -- +X neighbor, lx = 15
    intro hl
    unfold World.set_block
    dsimp only
    rw [mark_boundary_other _ _ _ _ _
          (by simp only [ne_eq, ChunkPos.mk.injEq]; omega)
          (by simp only [ne_eq, ChunkPos.mk.injEq]; omega),
        mark_boundary_other _ _ _ _ _
          (by simp only [ne_eq, ChunkPos.mk.injEq]; omega)
          (by simp only [ne_eq, ChunkPos.mk.injEq]; omega),
        mark_boundary_pos_self _ _ _ _ (by omega) (by unfold CHUNK_SIZE; omega)]
    congr 1
    simp only [if_neg (show (⟨chunk_coord x + 1, chunk_coord y, chunk_coord z⟩ : ChunkPos)
        ≠ ⟨chunk_coord x, chunk_coord y, chunk_coord z⟩ by
      simp only [ne_eq, ChunkPos.mk.injEq]; omega)]
  · -- -X neighbor, lx = 0
    intro hl
    unfold World.set_block
    dsimp only
    rw [mark_boundary_other _ _ _ _ _
          (by simp only [ne_eq, ChunkPos.mk.injEq]; omega)
          (by simp only [ne_eq, ChunkPos.mk.injEq]; omega),
        mark_boundary_other _ _ _ _ _
          (by simp only [ne_eq, ChunkPos.mk.injEq]; omega)
          (by simp only [ne_eq, ChunkPos.mk.injEq]; omega),
        mark_boundary_neg_self _ _ _ _ hl]
    congr 1
    simp only [if_neg (show (⟨chunk_coord x - 1, chunk_coord y, chunk_coord z⟩ : ChunkPos)
        ≠ ⟨chunk_coord x, chunk_coord y, chunk_coord z⟩ by
      simp only [ne_eq, ChunkPos.mk.injEq]; omega)]
  · -- +Y neighbor, ly = 15
    intro hl
    unfold World.set_block
    dsimp only
    rw [mark_boundary_other _ _ _ _ _
          (by simp only [ne_eq, ChunkPos.mk.injEq]; omega)
          (by simp only [ne_eq, ChunkPos.mk.injEq]; omega),
        mark_boundary_pos_self _ _ _ _ (by omega) (by unfold CHUNK_SIZE; omega)]
    congr 1
    rw [mark_boundary_other _ _ _ _ _
          (by simp only [ne_eq, ChunkPos.mk.injEq]; omega)
          (by simp only [ne_eq, ChunkPos.mk.injEq]; omega)]
    simp only [if_neg (show (⟨chunk_coord x, chunk_coord y + 1, chunk_coord z⟩ : ChunkPos)
        ≠ ⟨chunk_coord x, chunk_coord y, chunk_coord z⟩ by
      simp only [ne_eq, ChunkPos.mk.injEq]; omega)]
  · -- -Y neighbor, ly = 0
    intro hl
    unfold World.set_block
    dsimp only
    rw [mark_boundary_other _ _ _ _ _
          (by simp only [ne_eq, ChunkPos.mk.injEq]; omega)
          (by simp only [ne_eq, ChunkPos.mk.injEq]; omega),
        mark_boundary_neg_self _ _ _ _ hl]
    congr 1
    rw [mark_boundary_other _ _ _ _ _
          (by simp only [ne_eq, ChunkPos.mk.injEq]; omega)
          (by simp only [ne_eq, ChunkPos.mk.injEq]; omega)]
    simp only [if_neg (show (⟨chunk_coord x, chunk_coord y - 1, chunk_coord z⟩ : ChunkPos)
        ≠ ⟨chunk_coord x, chunk_coord y, chunk_coord z⟩ by
      simp only [ne_eq, ChunkPos.mk.injEq]; omega)]
  · -- +Z neighbor, lz = 15
    intro hl
    unfold World.set_block
    dsimp only
    rw [mark_boundary_pos_self _ _ _ _ (by omega) (by unfold CHUNK_SIZE; omega)]
    congr 1
    rw [mark_boundary_other _ _ _ _ _
          (by simp only [ne_eq, ChunkPos.mk.injEq]; omega)
          (by simp only [ne_eq, ChunkPos.mk.injEq]; omega),
        mark_boundary_other _ _ _ _ _
          (by simp only [ne_eq, ChunkPos.mk.injEq]; omega)
          (by simp only [ne_eq, ChunkPos.mk.injEq]; omega)]
    simp only [if_neg (show (⟨chunk_coord x, chunk_coord y, chunk_coord z + 1⟩ : ChunkPos)
        ≠ ⟨chunk_coord x, chunk_coord y, chunk_coord z⟩ by
      simp only [ne_eq, ChunkPos.mk.injEq]; omega)]
  · -- -Z neighbor, lz = 0
    intro hl
    unfold World.set_block
    dsimp only
    rw [mark_boundary_neg_self _ _ _ _ hl]
    congr 1
    rw [mark_boundary_other _ _ _ _ _
          (by simp only [ne_eq, ChunkPos.mk.injEq]; omega)
          (by simp only [ne_eq, ChunkPos.mk.injEq]; omega),
        mark_boundary_other _ _ _ _ _
          (by simp only [ne_eq, ChunkPos.mk.injEq]; omega)
          (by simp only [ne_eq, ChunkPos.mk.injEq]; omega)]
    simp only [if_neg (show (⟨chunk_coord x, chunk_coord y, chunk_coord z - 1⟩ : ChunkPos)
        ≠ ⟨chunk_coord x, chunk_coord y, chunk_coord z⟩ by
      simp only [ne_eq, ChunkPos.mk.injEq]; omega)]
  · -- no chunk other than the owner is created or removed
    intro p hp
    unfold World.set_block
    dsimp only
    rw [mark_boundary_isSome, mark_boundary_isSome, mark_boundary_isSome]
    simp [hp]

/-- Witness for C5: writing at `x = 16` first creates chunk `(1,0,0)`; then a
write at `x = 15` (local coordinate 15) with that neighbor absent leaves it
absent, and with it loaded marks it dirty. -/
theorem set_block_dirty_marks_witness :
    (World.set_block wEmpty 15 0 0 Block.Dirt).1.chunks ⟨1, 0, 0⟩ = none ∧
    ∃ ch, (World.set_block (World.set_block wEmpty 16 0 0 Block.Dirt).1
        15 0 0 Block.Dirt).1.chunks ⟨1, 0, 0⟩ = some ch ∧ ch.dirty = true := by
  have e : (⟨chunk_coord 15 + 1, chunk_coord 0, chunk_coord 0⟩ : ChunkPos) = ⟨1, 0, 0⟩ := by
    decide
  constructor
  · have h := (set_block_dirty_marks wEmpty 15 0 0 Block.Dirt).2.1 (by decide)
    rw [e] at h
    exact h
  · have h := (set_block_dirty_marks (World.set_block wEmpty 16 0 0 Block.Dirt).1
        15 0 0 Block.Dirt).2.1 (by decide)
    rw [e] at h
    exact ⟨{ (Chunk.new ⟨1, 0, 0⟩).set_local 0 0 0 Block.Dirt with dirty := true },
      h.trans rfl, rfl⟩

/-! ## Greedy mesher (src/voxel_mesher.rs) -/

/-- `fn is_air(b) = (b == Block::Air)`. -/
def is_air (b : Block) : Bool := b == Block.Air

/-- `fn block_color(b)`: flat material color. The `f32` literals are carried
as exact rationals; they are opaque payload, never computed with. -/
def block_color (b : Block) : Rat × Rat × Rat :=
  match b with
  | Block.Air => (0, 0, 0)
  | Block.Dirt => (0.55, 0.40, 0.20)
  | Block.Stone => (0.60, 0.60, 0.60)

/-- `mesh::Vertex { pos, color }`; the positions `push_quad` produces are
integers (exact in `f32` for world coordinates of this size). -/
structure Vertex where
  pos : Int × Int × Int
  color : Rat × Rat × Rat
deriving DecidableEq, Repr

/-- The 2-D face mask built per axis/plane (`mask: Vec<Option<(Block, bool)>>`
of length 256, cell `n` holding the entry for `i = n % 16`, `j = n / 16`). -/
abbrev Mask := Nat → Option (Block × Bool)

/-- The value the mask-fill loop of `mesh_chunk` stores at cell `n` of the
plane `d` on `axis`: compare the block before the plane (`a`, `Air` when
`d = 0`) and after it (`b`, `Air` when `d = CHUNK_SIZE`); a face is recorded
if exactly one side is solid.  Note the `d = 0`/`d = 16` boundary planes use
the constant `Block::Air` for the far side — `world.get_block` is only called
for in-chunk coordinates `ox+d-1` / `ox+d` with `d-1, d ∈ [0, 16)`. -/
def faceMask (w : World) (cp : ChunkPos) (axis : Nat) (d : Int) : Mask :=
  fun n =>
    let i : Int := (n % 16 : Nat)
    let j : Int := (n / 16 : Nat)
    let ox := cp.cx * CHUNK_SIZE
    let oy := cp.cy * CHUNK_SIZE
    let oz := cp.cz * CHUNK_SIZE
    let ab : Block × Block :=
      if axis = 0 then
        -- X axis: i -> Z, j -> Y
        (if 0 < d then w.get_block (ox + (d - 1)) (oy + j) (oz + i) else Block.Air,
         if d < CHUNK_SIZE then w.get_block (ox + d) (oy + j) (oz + i) else Block.Air)
      else if axis = 1 then
        -- Y axis: i -> X, j -> Z
        (if 0 < d then w.get_block (ox + i) (oy + (d - 1)) (oz + j) else Block.Air,
         if d < CHUNK_SIZE then w.get_block (ox + i) (oy + d) (oz + j) else Block.Air)
      else
        -- Z axis: i -> X, j -> Y
        (if 0 < d then w.get_block (ox + i) (oy + j) (oz + (d - 1)) else Block.Air,
         if d < CHUNK_SIZE then w.get_block (ox + i) (oy + j) (oz + d) else Block.Air)
    if !is_air ab.1 || !is_air ab.2 then
      if !is_air ab.1 && is_air ab.2 then some (ab.1, false)
      else if is_air ab.1 && !is_air ab.2 then some (ab.2, true)
      else none
    else none

/-- A quad emitted by the greedy scan, in mask coordinates: anchor cell
`idx` (the source's scan index, with `i0 = idx % 16`, `j0 = idx / 16`),
extents `w × h`, and the face tag (material, orientation). -/
structure MRect where
  idx : Nat
  w : Nat
  h : Nat
  block : Block
  pos_side : Bool
deriving DecidableEq, Repr

/-- Does the rectangle anchored at cell `i0` with extents `wq × hq` cover
mask cell `c`?  The covered cells are exactly the ones the source's
mask-clearing loop visits: `idx + dx + dy*16` for `dx < w`, `dy < h`. -/
def coveredByB (i0 wq hq c : Nat) : Bool :=
  (List.range hq).any fun dy => (List.range wq).any fun dx => c == i0 + dx + dy * 16

/-- Propositional form of `coveredByB`. -/
def coveredBy (i0 wq hq c : Nat) : Prop := coveredByB i0 wq hq c = true

theorem coveredBy_iff {i0 wq hq c : Nat} :
    coveredBy i0 wq hq c ↔ ∃ dy, dy < hq ∧ ∃ dx, dx < wq ∧ c = i0 + dx + dy * 16 := by
  unfold coveredBy coveredByB
  simp [List.any_eq_true, List.mem_range]

/-- The mask after the source's clearing loop: covered cells become `None`. -/
def clearRect (m : Mask) (i0 wq hq : Nat) : Mask :=
  fun c => if coveredByB i0 wq hq c then none else m c

/-- The width-extension loop:
`while (idx % size) + w < size && mask[idx + w] == Some(tag) { w += 1 }`.
The fuel argument (called with 16) strictly exceeds the loop's maximum trip
count, so the recursion stops exactly when the loop condition first fails. -/
def extendW (m : Mask) (tag : Block × Bool) (i0 : Nat) : Nat → Nat → Nat
  | 0, wq => wq
  | fuel + 1, wq =>
    if i0 % 16 + wq < 16 ∧ m (i0 + wq) = some tag then extendW m tag i0 fuel (wq + 1)
    else wq

/-- Does row `dy` of a candidate rectangle fully match the tag
(the `for k in 0..w` check of the height-extension loop)? -/
def rowMatch (m : Mask) (tag : Block × Bool) (i0 wq dy : Nat) : Bool :=
  (List.range wq).all fun dx => m (i0 + dx + dy * 16) == some tag

/-- The height-extension loop: extend while the next full row matches;
fuel (called with 16) strictly exceeds the maximum trip count. -/
def extendH (m : Mask) (tag : Block × Bool) (i0 wq : Nat) : Nat → Nat → Nat
  | 0, hq => hq
  | fuel + 1, hq =>
    if i0 / 16 + hq < 16 ∧ rowMatch m tag i0 wq hq = true then extendH m tag i0 wq fuel (hq + 1)
    else hq

/-- The greedy cover scan (`let mut idx = 0; while idx < mask.len() { ... }`):
at each set cell emit the maximal rectangle found by `extendW`/`extendH`,
clear its cells, and continue at `idx + 1`.  Fuel 257 strictly exceeds the
loop's 256 iterations, so the recursion reproduces the loop exactly. -/
def greedyLoop (m : Mask) : Nat → Nat → List MRect
  | 0, _ => []
  | fuel + 1, i =>
    if i < 256 then
      match m i with
      | none => greedyLoop m fuel (i + 1)
      | some tag =>
        let wq := extendW m tag i 16 1
        let hq := extendH m tag i wq 16 1
        { idx := i, w := wq, h := hq, block := tag.1, pos_side := tag.2 } ::
          greedyLoop (clearRect m i wq hq) fuel (i + 1)
    else []

/-- All quads the greedy scan emits for one mask, in emission order. -/
def greedyRects (m : Mask) : List MRect := greedyLoop m 257 0

/-- `push_quad`: append the 4 vertices (CCW winding towards the outward
normal) and 6 indices of one quad.  The `_` case models the source's
`unreachable!()` arm (never hit: `mesh_chunk` only passes axis 0, 1, 2). -/
def push_quad (axis : Nat) (pos_side : Bool) (d i0 j0 wq hq : Int)
    (color : Rat × Rat × Rat) (ox oy oz : Int)
    (verts : List Vertex) (inds : List Nat) : List Vertex × List Nat :=
  let emit : (Int × Int × Int) → (Int × Int × Int) → (Int × Int × Int) → (Int × Int × Int) →
      List Vertex × List Nat := fun p0 p1 p2 p3 =>
    let base := verts.length
    (verts ++ [⟨p0, color⟩, ⟨p1, color⟩, ⟨p2, color⟩, ⟨p3, color⟩],
     inds ++ [base, base + 1, base + 2, base, base + 2, base + 3])
  match axis, pos_side with
  | 0, true =>
    emit (ox + d, oy + j0, oz + i0) (ox + d, oy + j0 + hq, oz + i0)
         (ox + d, oy + j0 + hq, oz + i0 + wq) (ox + d, oy + j0, oz + i0 + wq)
  | 0, false =>
    emit (ox + d - 1, oy + j0, oz + i0 + wq) (ox + d - 1, oy + j0 + hq, oz + i0 + wq)
         (ox + d - 1, oy + j0 + hq, oz + i0) (ox + d - 1, oy + j0, oz + i0)
  | 1, true =>
    emit (ox + i0, oy + d, oz + j0) (ox + i0, oy + d, oz + j0 + hq)
         (ox + i0 + wq, oy + d, oz + j0 + hq) (ox + i0 + wq, oy + d, oz + j0)
  | 1, false =>
    emit (ox + i0, oy + d - 1, oz + j0) (ox + i0, oy + d - 1, oz + j0 + hq)
         (ox + i0 + wq, oy + d - 1, oz + j0 + hq) (ox + i0 + wq, oy + d - 1, oz + j0)
  | 2, true =>
    emit (ox + i0, oy + j0, oz + d) (ox + i0, oy + j0 + hq, oz + d)
         (ox + i0 + wq, oy + j0 + hq, oz + d) (ox + i0 + wq, oy + j0, oz + d)
  | 2, false =>
    emit (ox + i0, oy + j0, oz + d - 1) (ox + i0, oy + j0 + hq, oz + d - 1)
         (ox + i0 + wq, oy + j0 + hq, oz + d - 1) (ox + i0 + wq, oy + j0, oz + d - 1)
  | _, _ => (verts, inds)

/-- `mesh_chunk(world, cp)`: for each axis 0..3 and plane `d` in 0..=16,
build the face mask, run the greedy cover, and push one quad per emitted
rectangle (with `i0 = idx % size`, `j0 = idx / size` as in the source). -/
def mesh_chunk (w : World) (cp : ChunkPos) : List Vertex × List Nat :=
  let ox := cp.cx * CHUNK_SIZE
  let oy := cp.cy * CHUNK_SIZE
  let oz := cp.cz * CHUNK_SIZE
  (List.range 3).foldl (fun acc (axis : Nat) =>
    (List.range 17).foldl (fun acc2 (dn : Nat) =>
      let d : Int := (dn : Int)
      (greedyRects (faceMask w cp axis d)).foldl (fun vi r =>
        push_quad axis r.pos_side d ((r.idx % 16 : Nat) : Int) ((r.idx / 16 : Nat) : Int)
          (r.w : Int) (r.h : Int) (block_color r.block) ox oy oz vi.1 vi.2) acc2) acc)
    ([], [])

/-- Modelled from the spec: the naive "one quad per exposed face" reference
mesher (spec §8 “Mesher/brute-force equivalence”, §9 “naive per-face”
variant — not present under `src/`): one 1×1 rectangle per set mask cell. -/
def naiveRects (m : Mask) : List MRect :=
  (List.range 256).filterMap fun c =>
    match m c with
    | some tag => some { idx := c, w := 1, h := 1, block := tag.1, pos_side := tag.2 }
    | none => none

/-! ### Behaviour of the greedy scan on constant masks -/

/-- One unfolding step of the scan loop. -/
theorem greedyLoop_succ (m : Mask) (fuel i : Nat) :
    greedyLoop m (fuel + 1) i =
      if i < 256 then
        match m i with
        | none => greedyLoop m fuel (i + 1)
        | some tag =>
          let wq := extendW m tag i 16 1
          let hq := extendH m tag i wq 16 1
          { idx := i, w := wq, h := hq, block := tag.1, pos_side := tag.2 } ::
            greedyLoop (clearRect m i wq hq) fuel (i + 1)
      else [] := rfl

/-- A mask with no set cell from `i` on emits no quad. -/
theorem greedyLoop_all_none (m : Mask) (fuel i : Nat)
    (h : ∀ c, i ≤ c → c < 256 → m c = none) : greedyLoop m fuel i = [] := by
  induction fuel generalizing m i with
  | zero => rfl
  | succ fuel ih =>
    rw [greedyLoop_succ]
    split
    · rw [h i le_rfl (by assumption)]
      exact ih m (i + 1) fun c hc1 hc2 => h c (by omega) hc2
    · rfl

/-- On a fully set first row the width extension reaches 16. -/
theorem extendW_full (m : Mask) (tag : Block × Bool)
    (h : ∀ k, k < 16 → m k = some tag) :
    ∀ fuel w0, w0 ≤ 16 → 16 ≤ fuel + w0 → extendW m tag 0 fuel w0 = 16 := by
  intro fuel
  induction fuel with
  | zero => intro w0 h1 h2; unfold extendW; omega
  | succ fuel ih =>
    intro w0 h1 h2
    unfold extendW
    by_cases hw : w0 < 16
    · rw [if_pos ⟨by omega, by simpa using h w0 hw⟩]
      exact ih (w0 + 1) (by omega) (by omega)
    · rw [if_neg (by rintro ⟨hlt, -⟩; omega)]
      omega

/-- A row all of whose cells hold the tag passes the row check. -/
theorem rowMatch_of (m : Mask) (tag : Block × Bool) (i0 wq dy : Nat)
    (h : ∀ dx, dx < wq → m (i0 + dx + dy * 16) = some tag) :
    rowMatch m tag i0 wq dy = true := by
  unfold rowMatch
  simp only [List.all_eq_true, List.mem_range, beq_iff_eq]
  exact h

/-- On a fully set mask the height extension reaches 16. -/
theorem extendH_full (m : Mask) (tag : Block × Bool)
    (h : ∀ c, c < 256 → m c = some tag) :
    ∀ fuel h0, h0 ≤ 16 → 16 ≤ fuel + h0 → extendH m tag 0 16 fuel h0 = 16 := by
  intro fuel
  induction fuel with
  | zero => intro h0 h1 h2; unfold extendH; omega
  | succ fuel ih =>
    intro h0 h1 h2
    unfold extendH
    by_cases hh : h0 < 16
    · rw [if_pos ⟨by omega, rowMatch_of m tag 0 16 h0 fun dx hdx => h _ (by omega)⟩]
      exact ih (h0 + 1) (by omega) (by omega)
    · rw [if_neg (by rintro ⟨hlt, -⟩; omega)]
      omega

/-- A mask set to the same tag on all 256 cells yields exactly one 16×16
quad anchored at cell 0. -/
theorem greedyRects_all_some (m : Mask) (tag : Block × Bool)
    (h : ∀ c, c < 256 → m c = some tag) :
    greedyRects m = [{ idx := 0, w := 16, h := 16, block := tag.1, pos_side := tag.2 }] := by
  have hW : extendW m tag 0 16 1 = 16 :=
    extendW_full m tag (fun k hk => h k (by omega)) 16 1 (by omega) (by omega)
  have hclear : ∀ c, 1 ≤ c → c < 256 → clearRect m 0 16 16 c = none := by
    intro c h1 h2
    have hcov : coveredBy 0 16 16 c :=
      coveredBy_iff.mpr ⟨c / 16, by omega, c % 16, by omega, by omega⟩
    unfold clearRect
    rw [if_pos (show coveredByB 0 16 16 c = true from hcov)]
  show greedyLoop m 257 0 = _
  rw [show (257 : Nat) = 256 + 1 from rfl, greedyLoop_succ, if_pos (by norm_num),
    h 0 (by norm_num)]
  dsimp only
  rw [hW]
  rw [extendH_full m tag h 16 1 (by omega) (by omega)]
  rw [greedyLoop_all_none _ 256 1 fun c hc1 hc2 => hclear c hc1 hc2]

/-! ## Claim C1 — boundary planes and fully occluded chunks -/

/-- A fully solid chunk (every cell `Stone`). -/
def solidChunk (cp : ChunkPos) : Chunk := ⟨cp, fun _ => Block.Stone, true⟩

/-- The world for C1: chunk `(0,0,0)` and all six of its face-adjacent
neighbor chunks are loaded and fully solid. -/
def wSolid : World :=
  { age_ticks := 0
    chunks := fun cp =>
      if cp = ⟨0, 0, 0⟩ ∨ cp = ⟨1, 0, 0⟩ ∨ cp = ⟨-1, 0, 0⟩ ∨ cp = ⟨0, 1, 0⟩ ∨
         cp = ⟨0, -1, 0⟩ ∨ cp = ⟨0, 0, 1⟩ ∨ cp = ⟨0, 0, -1⟩ then
        some (solidChunk cp)
      else none }

/-- Every block of the central chunk of `wSolid` is `Stone`. -/
theorem wSolid_get_inside (x y z : Int) (hx0 : 0 ≤ x) (hx1 : x < 16)
    (hy0 : 0 ≤ y) (hy1 : y < 16) (hz0 : 0 ≤ z) (hz1 : z < 16) :
    wSolid.get_block x y z = Block.Stone := by
  unfold World.get_block
  dsimp only
  have hcx : chunk_coord x = 0 := by unfold chunk_coord CHUNK_SIZE; omega
  have hcy : chunk_coord y = 0 := by unfold chunk_coord CHUNK_SIZE; omega
  have hcz : chunk_coord z = 0 := by unfold chunk_coord CHUNK_SIZE; omega
  rw [hcx, hcy, hcz]
  rfl


/-- On interior planes (`1 ≤ d ≤ 15`) both sides of the plane are solid, so
the mask of `wSolid`'s central chunk is empty. -/
theorem wSolid_mask_mid (axis : Nat) (d : Int) (hd1 : 1 ≤ d) (hd15 : d ≤ 15)
    (c : Nat) (hc : c < 256) :
    faceMask wSolid ⟨0, 0, 0⟩ axis d c = none := by
  have hCS : CHUNK_SIZE = 16 := rfl
  unfold faceMask
  match axis with
  | 0 =>
    dsimp only
    rw [if_pos (rfl : (0 : Nat) = 0),
        if_pos (show (0 : Int) < d by omega),
        if_pos (show d < CHUNK_SIZE by rw [hCS]; omega),
        wSolid_get_inside (0 * CHUNK_SIZE + (d - 1))
          (0 * CHUNK_SIZE + ((c / 16 : Nat) : Int)) (0 * CHUNK_SIZE + ((c % 16 : Nat) : Int))
          (by rw [hCS]; omega) (by rw [hCS]; omega) (by rw [hCS]; omega)
          (by rw [hCS]; omega) (by rw [hCS]; omega) (by rw [hCS]; omega),
        wSolid_get_inside (0 * CHUNK_SIZE + d)
          (0 * CHUNK_SIZE + ((c / 16 : Nat) : Int)) (0 * CHUNK_SIZE + ((c % 16 : Nat) : Int))
          (by rw [hCS]; omega) (by rw [hCS]; omega) (by rw [hCS]; omega)
          (by rw [hCS]; omega) (by rw [hCS]; omega) (by rw [hCS]; omega)]
    rfl
  | 1 =>
    dsimp only
    rw [if_neg (by omega : ¬ (1 : Nat) = 0), if_pos (rfl : (1 : Nat) = 1),
        if_pos (show (0 : Int) < d by omega),
        if_pos (show d < CHUNK_SIZE by rw [hCS]; omega),
        wSolid_get_inside (0 * CHUNK_SIZE + ((c % 16 : Nat) : Int))
          (0 * CHUNK_SIZE + (d - 1)) (0 * CHUNK_SIZE + ((c / 16 : Nat) : Int))
          (by rw [hCS]; omega) (by rw [hCS]; omega) (by rw [hCS]; omega)
          (by rw [hCS]; omega) (by rw [hCS]; omega) (by rw [hCS]; omega),
        wSolid_get_inside (0 * CHUNK_SIZE + ((c % 16 : Nat) : Int))
          (0 * CHUNK_SIZE + d) (0 * CHUNK_SIZE + ((c / 16 : Nat) : Int))
          (by rw [hCS]; omega) (by rw [hCS]; omega) (by rw [hCS]; omega)
          (by rw [hCS]; omega) (by rw [hCS]; omega) (by rw [hCS]; omega)]
    rfl
  | (n + 2) =>
    dsimp only
    rw [if_neg (by omega : ¬ n + 2 = 0), if_neg (by omega : ¬ n + 2 = 1),
        if_pos (show (0 : Int) < d by omega),
        if_pos (show d < CHUNK_SIZE by rw [hCS]; omega),
        wSolid_get_inside (0 * CHUNK_SIZE + ((c % 16 : Nat) : Int))
          (0 * CHUNK_SIZE + ((c / 16 : Nat) : Int)) (0 * CHUNK_SIZE + (d - 1))
          (by rw [hCS]; omega) (by rw [hCS]; omega) (by rw [hCS]; omega)
          (by rw [hCS]; omega) (by rw [hCS]; omega) (by rw [hCS]; omega),
        wSolid_get_inside (0 * CHUNK_SIZE + ((c % 16 : Nat) : Int))
          (0 * CHUNK_SIZE + ((c / 16 : Nat) : Int)) (0 * CHUNK_SIZE + d)
          (by rw [hCS]; omega) (by rw [hCS]; omega) (by rw [hCS]; omega)
          (by rw [hCS]; omega) (by rw [hCS]; omega) (by rw [hCS]; omega)]
    rfl

/-- At the plane `d = 0` the far side is the constant `Block::Air` (the
`d > 0` guard fails; `world.get_block` is *not* consulted across the chunk
edge), so against the solid chunk every cell is an outward `+axis` face. -/
theorem wSolid_mask_d0 (axis : Nat) (c : Nat) (hc : c < 256) :
    faceMask wSolid ⟨0, 0, 0⟩ axis 0 c = some (Block.Stone, true) := by
  have hCS : CHUNK_SIZE = 16 := rfl
  unfold faceMask
  match axis with
  | 0 =>
    dsimp only
    rw [if_pos (rfl : (0 : Nat) = 0),
        if_neg (show ¬(0 : Int) < 0 by omega),
        if_pos (show (0 : Int) < CHUNK_SIZE by rw [hCS]; omega),
        wSolid_get_inside (0 * CHUNK_SIZE + 0)
          (0 * CHUNK_SIZE + ((c / 16 : Nat) : Int)) (0 * CHUNK_SIZE + ((c % 16 : Nat) : Int))
          (by rw [hCS]; omega) (by rw [hCS]; omega) (by rw [hCS]; omega)
          (by rw [hCS]; omega) (by rw [hCS]; omega) (by rw [hCS]; omega)]
    rfl
  | 1 =>
    dsimp only
    rw [if_neg (by omega : ¬ (1 : Nat) = 0), if_pos (rfl : (1 : Nat) = 1),
        if_neg (show ¬(0 : Int) < 0 by omega),
        if_pos (show (0 : Int) < CHUNK_SIZE by rw [hCS]; omega),
        wSolid_get_inside (0 * CHUNK_SIZE + ((c % 16 : Nat) : Int))
          (0 * CHUNK_SIZE + 0) (0 * CHUNK_SIZE + ((c / 16 : Nat) : Int))
          (by rw [hCS]; omega) (by rw [hCS]; omega) (by rw [hCS]; omega)
          (by rw [hCS]; omega) (by rw [hCS]; omega) (by rw [hCS]; omega)]
    rfl
  | (n + 2) =>
    dsimp only
    rw [if_neg (by omega : ¬ n + 2 = 0), if_neg (by omega : ¬ n + 2 = 1),
        if_neg (show ¬(0 : Int) < 0 by omega),
        if_pos (show (0 : Int) < CHUNK_SIZE by rw [hCS]; omega),
        wSolid_get_inside (0 * CHUNK_SIZE + ((c % 16 : Nat) : Int))
          (0 * CHUNK_SIZE + ((c / 16 : Nat) : Int)) (0 * CHUNK_SIZE + 0)
          (by rw [hCS]; omega) (by rw [hCS]; omega) (by rw [hCS]; omega)
          (by rw [hCS]; omega) (by rw [hCS]; omega) (by rw [hCS]; omega)]
    rfl

/-- At the plane `d = 16` the near side is the in-chunk block at local 15 and
the far side is the constant `Block::Air` (the `d < CHUNK_SIZE` guard fails;
the neighbor chunk is not consulted), so every cell is an outward `-axis`
face. -/
theorem wSolid_mask_d16 (axis : Nat) (c : Nat) (hc : c < 256) :
    faceMask wSolid ⟨0, 0, 0⟩ axis 16 c = some (Block.Stone, false) := by
  have hCS : CHUNK_SIZE = 16 := rfl
  unfold faceMask
  match axis with
  | 0 =>
    dsimp only
    rw [if_pos (rfl : (0 : Nat) = 0),
        if_pos (show (0 : Int) < 16 by omega),
        if_neg (show ¬(16 : Int) < CHUNK_SIZE by rw [hCS]; omega),
        wSolid_get_inside (0 * CHUNK_SIZE + (16 - 1))
          (0 * CHUNK_SIZE + ((c / 16 : Nat) : Int)) (0 * CHUNK_SIZE + ((c % 16 : Nat) : Int))
          (by rw [hCS]; omega) (by rw [hCS]; omega) (by rw [hCS]; omega)
          (by rw [hCS]; omega) (by rw [hCS]; omega) (by rw [hCS]; omega)]
    rfl
  | 1 =>
    dsimp only
    rw [if_neg (by omega : ¬ (1 : Nat) = 0), if_pos (rfl : (1 : Nat) = 1),
        if_pos (show (0 : Int) < 16 by omega),
        if_neg (show ¬(16 : Int) < CHUNK_SIZE by rw [hCS]; omega),
        wSolid_get_inside (0 * CHUNK_SIZE + ((c % 16 : Nat) : Int))
          (0 * CHUNK_SIZE + (16 - 1)) (0 * CHUNK_SIZE + ((c / 16 : Nat) : Int))
          (by rw [hCS]; omega) (by rw [hCS]; omega) (by rw [hCS]; omega)
          (by rw [hCS]; omega) (by rw [hCS]; omega) (by rw [hCS]; omega)]
    rfl
  | (n + 2) =>
    dsimp only
    rw [if_neg (by omega : ¬ n + 2 = 0), if_neg (by omega : ¬ n + 2 = 1),
        if_pos (show (0 : Int) < 16 by omega),
        if_neg (show ¬(16 : Int) < CHUNK_SIZE by rw [hCS]; omega),
        wSolid_get_inside (0 * CHUNK_SIZE + ((c % 16 : Nat) : Int))
          (0 * CHUNK_SIZE + ((c / 16 : Nat) : Int)) (0 * CHUNK_SIZE + (16 - 1))
          (by rw [hCS]; omega) (by rw [hCS]; omega) (by rw [hCS]; omega)
          (by rw [hCS]; omega) (by rw [hCS]; omega) (by rw [hCS]; omega)]
    rfl

/-- **C1** (failing-input evaluation).  In `wSolid` all six face-adjacent
neighbor chunks of `(0,0,0)` are loaded and fully solid, yet `mesh_chunk`
emits 6 boundary quads (24 vertices, 36 indices) instead of the 0 quads the
claim requires: the `d = 0` and `d = 16` plane comparisons use the constant
`Block::Air` for the far side instead of querying `world.get_block` across
the chunk edge. -/
theorem mesh_chunk_solid_surrounded :
    wSolid.is_solid (-1) 8 8 = true ∧ wSolid.is_solid 16 8 8 = true ∧
    wSolid.is_solid 8 (-1) 8 = true ∧ wSolid.is_solid 8 16 8 = true ∧
    wSolid.is_solid 8 8 (-1) = true ∧ wSolid.is_solid 8 8 16 = true ∧
    (mesh_chunk wSolid ⟨0, 0, 0⟩).1.length = 24 ∧
    (mesh_chunk wSolid ⟨0, 0, 0⟩).2.length = 36 := by
  have g0 : ∀ axis : Nat, greedyRects (faceMask wSolid ⟨0, 0, 0⟩ axis 0)
      = [{ idx := 0, w := 16, h := 16, block := Block.Stone, pos_side := true }] :=
    fun axis => greedyRects_all_some _ (Block.Stone, true) fun c hc => wSolid_mask_d0 axis c hc
  have g16 : ∀ axis : Nat, greedyRects (faceMask wSolid ⟨0, 0, 0⟩ axis 16)
      = [{ idx := 0, w := 16, h := 16, block := Block.Stone, pos_side := false }] :=
    fun axis => greedyRects_all_some _ (Block.Stone, false) fun c hc => wSolid_mask_d16 axis c hc
  have gmid : ∀ (axis : Nat) (d : Int), 1 ≤ d → d ≤ 15 →
      greedyRects (faceMask wSolid ⟨0, 0, 0⟩ axis d) = [] :=
    fun axis d h1 h2 => greedyLoop_all_none _ 257 0 fun c _ hc => wSolid_mask_mid axis d h1 h2 c hc
  refine ⟨by decide, by decide, by decide, by decide, by decide, by decide, ?_, ?_⟩ <;>
  · unfold mesh_chunk
    dsimp only
    rw [show List.range 3 = [0, 1, 2] from rfl,
        show List.range 17 = [0, 1, 2, 3, 4, 5, 6, 7, 8, 9, 10, 11, 12, 13, 14, 15, 16] from rfl]
    simp only [List.foldl_cons, List.foldl_nil]
    simp only [Nat.cast_ofNat, Nat.cast_one, Nat.cast_zero]
    rw [g0 0,
      g16 0,
      g0 1,
      g16 1,
      g0 2,
      g16 2,
      gmid 0 1 (by norm_num) (by norm_num),
      gmid 0 2 (by norm_num) (by norm_num),
      gmid 0 3 (by norm_num) (by norm_num),
      gmid 0 4 (by norm_num) (by norm_num),
      gmid 0 5 (by norm_num) (by norm_num),
      gmid 0 6 (by norm_num) (by norm_num),
      gmid 0 7 (by norm_num) (by norm_num),
      gmid 0 8 (by norm_num) (by norm_num),
      gmid 0 9 (by norm_num) (by norm_num),
      gmid 0 10 (by norm_num) (by norm_num),
      gmid 0 11 (by norm_num) (by norm_num),
      gmid 0 12 (by norm_num) (by norm_num),
      gmid 0 13 (by norm_num) (by norm_num),
      gmid 0 14 (by norm_num) (by norm_num),
      gmid 0 15 (by norm_num) (by norm_num),
      gmid 1 1 (by norm_num) (by norm_num),
      gmid 1 2 (by norm_num) (by norm_num),
      gmid 1 3 (by norm_num) (by norm_num),
      gmid 1 4 (by norm_num) (by norm_num),
      gmid 1 5 (by norm_num) (by norm_num),
      gmid 1 6 (by norm_num) (by norm_num),
      gmid 1 7 (by norm_num) (by norm_num),
      gmid 1 8 (by norm_num) (by norm_num),
      gmid 1 9 (by norm_num) (by norm_num),
      gmid 1 10 (by norm_num) (by norm_num),
      gmid 1 11 (by norm_num) (by norm_num),
      gmid 1 12 (by norm_num) (by norm_num),
      gmid 1 13 (by norm_num) (by norm_num),
      gmid 1 14 (by norm_num) (by norm_num),
      gmid 1 15 (by norm_num) (by norm_num),
      gmid 2 1 (by norm_num) (by norm_num),
      gmid 2 2 (by norm_num) (by norm_num),
      gmid 2 3 (by norm_num) (by norm_num),
      gmid 2 4 (by norm_num) (by norm_num),
      gmid 2 5 (by norm_num) (by norm_num),
      gmid 2 6 (by norm_num) (by norm_num),
      gmid 2 7 (by norm_num) (by norm_num),
      gmid 2 8 (by norm_num) (by norm_num),
      gmid 2 9 (by norm_num) (by norm_num),
      gmid 2 10 (by norm_num) (by norm_num),
      gmid 2 11 (by norm_num) (by norm_num),
      gmid 2 12 (by norm_num) (by norm_num),
      gmid 2 13 (by norm_num) (by norm_num),
      gmid 2 14 (by norm_num) (by norm_num),
      gmid 2 15 (by norm_num) (by norm_num)]
    simp only [List.foldl_cons, List.foldl_nil]
    decide

/-! ## Claim C2 — greedy cover vs. naive per-face mesher -/

/-- Every width the extension loop reaches is at least its start value. -/
theorem extendW_ge (m : Mask) (tag : Block × Bool) (i0 : Nat) :
    ∀ fuel w0, w0 ≤ extendW m tag i0 fuel w0 := by
  intro fuel
  induction fuel with
  | zero => intro w0; exact le_rfl
  | succ fuel ih =>
    intro w0
    unfold extendW
    split
    · exact le_trans (by omega) (ih (w0 + 1))
    · exact le_rfl

/-- Every column the width extension passed satisfies the loop condition:
it is inside the row and its cell holds the tag. -/
theorem extendW_mem (m : Mask) (tag : Block × Bool) (i0 : Nat) :
    ∀ fuel w0 k, w0 ≤ k → k < extendW m tag i0 fuel w0 →
      i0 % 16 + k < 16 ∧ m (i0 + k) = some tag := by
  intro fuel
  induction fuel with
  | zero => intro w0 k h1 h2; unfold extendW at h2; omega
  | succ fuel ih =>
    intro w0 k h1 h2
    unfold extendW at h2
    split at h2
    case isTrue hcond =>
      rcases Nat.eq_or_lt_of_le h1 with rfl | hlt
      · exact hcond
      · exact ih (w0 + 1) k hlt h2
    case isFalse hcond => omega

theorem rowMatch_iff {m : Mask} {tag : Block × Bool} {i0 wq dy : Nat} :
    rowMatch m tag i0 wq dy = true ↔ ∀ dx, dx < wq → m (i0 + dx + dy * 16) = some tag := by
  unfold rowMatch
  simp [List.all_eq_true, List.mem_range]

/-- Every height the extension loop reaches is at least its start value. -/
theorem extendH_ge (m : Mask) (tag : Block × Bool) (i0 wq : Nat) :
    ∀ fuel h0, h0 ≤ extendH m tag i0 wq fuel h0 := by
  intro fuel
  induction fuel with
  | zero => intro h0; exact le_rfl
  | succ fuel ih =>
    intro h0
    unfold extendH
    split
    · exact le_trans (by omega) (ih (h0 + 1))
    · exact le_rfl

/-- Every row the height extension passed satisfies the loop condition:
it is inside the mask and fully matches the tag. -/
theorem extendH_mem (m : Mask) (tag : Block × Bool) (i0 wq : Nat) :
    ∀ fuel h0 dy, h0 ≤ dy → dy < extendH m tag i0 wq fuel h0 →
      i0 / 16 + dy < 16 ∧ rowMatch m tag i0 wq dy = true := by
  intro fuel
  induction fuel with
  | zero => intro h0 dy h1 h2; unfold extendH at h2; omega
  | succ fuel ih =>
    intro h0 dy h1 h2
    unfold extendH at h2
    split at h2
    case isTrue hcond =>
      rcases Nat.eq_or_lt_of_le h1 with rfl | hlt
      · exact hcond
      · exact ih (h0 + 1) dy hlt h2
    case isFalse hcond => omega

/-- Every cell of the rectangle the scan emits at `i` held the tag in the
mask at emission time, lies at a linear index `≥ i`, and is inside the
256-cell mask. -/
theorem rect_cells_sound (m : Mask) (tag : Block × Bool) (i : Nat) (hi : i < 256)
    (hm : m i = some tag) :
    ∀ c, coveredBy i (extendW m tag i 16 1) (extendH m tag i (extendW m tag i 16 1) 16 1) c →
      m c = some tag ∧ i ≤ c ∧ c < 256 := by
  intro c hc
  obtain ⟨dy, hdy, dx, hdx, rfl⟩ := coveredBy_iff.mp hc
  have hcol : dx = 0 ∨ (i % 16 + dx < 16 ∧ m (i + dx) = some tag) := by
    rcases Nat.eq_zero_or_pos dx with rfl | hpos
    · exact Or.inl rfl
    · exact Or.inr (extendW_mem m tag i 16 1 dx hpos hdx)
  have hrow : dy = 0 ∨ (i / 16 + dy < 16 ∧ rowMatch m tag i (extendW m tag i 16 1) dy = true) := by
    rcases Nat.eq_zero_or_pos dy with rfl | hpos
    · exact Or.inl rfl
    · exact Or.inr (extendH_mem m tag i (extendW m tag i 16 1) 16 1 dy hpos hdy)
  have hcell : m (i + dx + dy * 16) = some tag := by
    rcases hrow with rfl | ⟨hrb, hrm⟩
    · rcases hcol with rfl | ⟨hcb, hcm⟩
      · simpa using hm
      · simpa using hcm
    · exact rowMatch_iff.mp hrm dx hdx
  refine ⟨hcell, by omega, ?_⟩
  rcases hrow with rfl | ⟨hrb, -⟩ <;> rcases hcol with rfl | ⟨hcb, -⟩ <;> omega

/-- Clearing makes every covered cell `None`. -/
theorem clearRect_none (m : Mask) (i0 wq hq c : Nat) (h : coveredBy i0 wq hq c) :
    clearRect m i0 wq hq c = none :=
  if_pos (show coveredByB i0 wq hq c = true from h)

/-- A cell still set after clearing was set before and is uncovered. -/
theorem clearRect_some {m : Mask} {i0 wq hq c : Nat} {t : Block × Bool}
    (h : clearRect m i0 wq hq c = some t) :
    m c = some t ∧ ¬ coveredBy i0 wq hq c := by
  unfold clearRect at h
  split at h
  · cases h
  · exact ⟨h, by assumption⟩

/-- Clearing leaves uncovered cells unchanged. -/
theorem clearRect_eq {m : Mask} {i0 wq hq c : Nat} (h : ¬ coveredBy i0 wq hq c) :
    clearRect m i0 wq hq c = m c :=
  if_neg (fun hb => h hb)

/-- A nonempty rectangle covers its own anchor cell. -/
theorem covers_anchor (i wq hq : Nat) (hw : 1 ≤ wq) (hh : 1 ≤ hq) :
    coveredBy i wq hq i :=
  coveredBy_iff.mpr ⟨0, by omega, 0, by omega, by omega⟩

/-- Invariant of the greedy scan from position `i`: (a) every emitted
rectangle covers only cells that held its tag in the current mask, at indices
in `[i, 256)`; (b) with enough fuel every set cell at index `≥ i` is covered
by some emitted rectangle; (c) the emitted rectangles are pairwise
disjoint. -/
theorem greedyLoop_spec : ∀ (fuel : Nat) (m : Mask) (i : Nat),
    (∀ r ∈ greedyLoop m fuel i, ∀ c, coveredBy r.idx r.w r.h c →
        m c = some (r.block, r.pos_side) ∧ i ≤ c ∧ c < 256) ∧
    (256 ≤ fuel + i → ∀ c, i ≤ c → c < 256 → ∀ tag, m c = some tag →
        ∃ r ∈ greedyLoop m fuel i, coveredBy r.idx r.w r.h c) ∧
    List.Pairwise (fun r1 r2 => ∀ c, coveredBy r1.idx r1.w r1.h c →
        ¬ coveredBy r2.idx r2.w r2.h c) (greedyLoop m fuel i) := by
  intro fuel
  induction fuel with
  | zero =>
    intro m i
    refine ⟨?_, ?_, List.Pairwise.nil⟩
    · intro r hr; cases hr
    · intro hfi c hc1 hc2 tag hm; omega
  | succ fuel ih =>
    intro m i
    by_cases hi : i < 256
    · cases hm : m i with
      | none =>
        have hstep : greedyLoop m (fuel + 1) i = greedyLoop m fuel (i + 1) := by
          rw [greedyLoop_succ, if_pos hi, hm]
        rw [hstep]
        obtain ⟨iha, ihb, ihc⟩ := ih m (i + 1)
        refine ⟨?_, ?_, ihc⟩
        · intro r hr c hc
          have h := iha r hr c hc
          exact ⟨h.1, by omega, h.2.2⟩
        · intro hfi c hc1 hc2 tag hmc
          have hne : i ≠ c := by
            intro hEq
            rw [← hEq, hm] at hmc
            cases hmc
          exact ihb (by omega) c (by omega) hc2 tag hmc
      | some tag =>
        obtain ⟨tb, ts⟩ := tag
        set wq := extendW m (tb, ts) i 16 1 with hwq
        set hq := extendH m (tb, ts) i wq 16 1 with hhq
        have hw1 : 1 ≤ wq := extendW_ge m (tb, ts) i 16 1
        have hh1 : 1 ≤ hq := extendH_ge m (tb, ts) i wq 16 1
        have hsound : ∀ c, coveredBy i wq hq c → m c = some (tb, ts) ∧ i ≤ c ∧ c < 256 :=
          rect_cells_sound m (tb, ts) i hi hm
        have hstep : greedyLoop m (fuel + 1) i =
            { idx := i, w := wq, h := hq, block := tb, pos_side := ts } ::
              greedyLoop (clearRect m i wq hq) fuel (i + 1) := by
          rw [greedyLoop_succ, if_pos hi, hm]
        rw [hstep]
        obtain ⟨iha, ihb, ihc⟩ := ih (clearRect m i wq hq) (i + 1)
        refine ⟨?_, ?_, ?_⟩
        · intro r hr c hc
          rcases List.mem_cons.mp hr with rfl | hr'
          · exact hsound c hc
          · have h := iha r hr' c hc
            exact ⟨(clearRect_some h.1).1, by omega, h.2.2⟩
        · intro hfi c hc1 hc2 tag' hmc
          by_cases hcov : coveredBy i wq hq c
          · exact ⟨_, List.mem_cons_self _ _, hcov⟩
          · have hne : i ≠ c := by
              intro hEq
              exact hcov (hEq ▸ covers_anchor i wq hq hw1 hh1)
            have hmc' : clearRect m i wq hq c = some tag' := by
              rw [clearRect_eq hcov]; exact hmc
            obtain ⟨r, hr, hrc⟩ := ihb (by omega) c (by omega) hc2 tag' hmc'
            exact ⟨r, List.mem_cons_of_mem _ hr, hrc⟩
        · refine List.Pairwise.cons ?_ ihc
          intro r hr c hc1 hc2
          have h := iha r hr c hc2
          rw [clearRect_none m i wq hq c hc1] at h
          cases h.1
    · have hempty : greedyLoop m (fuel + 1) i = [] := by
        rw [greedyLoop_succ, if_neg hi]
      rw [hempty]
      refine ⟨?_, ?_, List.Pairwise.nil⟩
      · intro r hr; cases hr
      · intro hfi c hc1 hc2 tag hm; omega

/-- Expanding the naive mesher's quads recovers exactly the set mask cells
with their tags. -/
theorem naiveRects_covers {m : Mask} {c : Nat} {tag : Block × Bool} :
    (∃ r ∈ naiveRects m, coveredBy r.idx r.w r.h c ∧ (r.block, r.pos_side) = tag) ↔
      c < 256 ∧ m c = some tag := by
  constructor
  · rintro ⟨r, hr, hcov, htag⟩
    rw [naiveRects, List.mem_filterMap] at hr
    obtain ⟨a, ha, hfa⟩ := hr
    rw [List.mem_range] at ha
    cases hma : m a with
    | none => rw [hma] at hfa; cases hfa
    | some t =>
      rw [hma] at hfa
      injection hfa with hfa
      subst hfa
      obtain ⟨dy, hdy, dx, hdx, rfl⟩ := coveredBy_iff.mp hcov
      dsimp only at hdy hdx htag ⊢
      have hdy0 : dy = 0 := by omega
      have hdx0 : dx = 0 := by omega
      subst hdy0; subst hdx0
      refine ⟨by omega, ?_⟩
      have : (t.1, t.2) = tag := htag
      simp only [show a + 0 + 0 * 16 = a from by omega, hma]
      rw [← this]
  · rintro ⟨hc256, hm⟩
    obtain ⟨tb, ts⟩ := tag
    refine ⟨{ idx := c, w := 1, h := 1, block := tb, pos_side := ts }, ?_,
      covers_anchor c 1 1 le_rfl le_rfl, rfl⟩
    rw [naiveRects, List.mem_filterMap]
    exact ⟨c, List.mem_range.mpr hc256, by rw [hm]⟩

/-- **C2.** For every world, chunk and mask plane: expanding the quads the
greedy scan emits back into unit cells yields exactly the faces the naive
one-quad-per-exposed-face mesher produces from the same face mask (same
cells, same material and orientation), and no two greedy quads overlap — so
every set mask cell is covered exactly once. -/
theorem greedy_naive_equivalence (w : World) (cp : ChunkPos) (axis : Nat) (d : Int) :
    (∀ c tag,
      (∃ r ∈ greedyRects (faceMask w cp axis d),
          coveredBy r.idx r.w r.h c ∧ (r.block, r.pos_side) = tag) ↔
      (∃ r ∈ naiveRects (faceMask w cp axis d),
          coveredBy r.idx r.w r.h c ∧ (r.block, r.pos_side) = tag)) ∧
    List.Pairwise (fun r1 r2 => ∀ c, coveredBy r1.idx r1.w r1.h c →
        ¬ coveredBy r2.idx r2.w r2.h c) (greedyRects (faceMask w cp axis d)) := by
  obtain ⟨ha, hb, hc⟩ := greedyLoop_spec 257 (faceMask w cp axis d) 0
  refine ⟨?_, hc⟩
  intro c tag
  rw [naiveRects_covers]
  constructor
  · rintro ⟨r, hr, hcov, rfl⟩
    have h := ha r hr c hcov
    exact ⟨h.2.2, h.1⟩
  · rintro ⟨hc256, hmc⟩
    obtain ⟨r, hr, hcov⟩ := hb (by omega) c (by omega) hc256 tag hmc
    have htag := (ha r hr c hcov).1
    rw [hmc] at htag
    injection htag with htag
    exact ⟨r, hr, hcov, htag.symm⟩

/-! ## Raycaster (src/world.rs, `raycast_first_solid`) -/

/-- Exact unnormalized fraction: the numeric model for the raycaster's `f32`
values.  Every constructor used below keeps the denominator positive, and
the operations are exact rational arithmetic, which agrees with IEEE-754
binary32 wherever every intermediate is exactly representable and no
operation rounds — as in the scenario claim C6 evaluates (small integers,
halves, and reciprocals of 1). -/
structure Frac where
  num : Int
  den : Int
deriving DecidableEq, Repr

/-- Embed an integer (`as f32`, exact for this range). -/
def Frac.ofInt (n : Int) : Frac := ⟨n, 1⟩

/-- Exact subtraction. -/
def Frac.sub (a b : Frac) : Frac := ⟨a.num * b.den - b.num * a.den, a.den * b.den⟩

/-- Exact multiplication. -/
def Frac.mul (a b : Frac) : Frac := ⟨a.num * b.num, a.den * b.den⟩

/-- Absolute value (positive denominators are preserved). -/
def Frac.fabs (a : Frac) : Frac := ⟨|a.num|, a.den⟩

/-- `1.0 / |a|` for `a ≠ 0` (positive denominator preserved for `a.num ≠ 0`). -/
def Frac.invAbs (a : Frac) : Frac := ⟨a.den, |a.num|⟩

/-- `a < b` for positive denominators (cross multiplication). -/
def Frac.blt (a b : Frac) : Bool := a.num * b.den < b.num * a.den

/-- `a ≤ b` for positive denominators. -/
def Frac.ble (a b : Frac) : Bool := a.num * b.den ≤ b.num * a.den

/-- `f32::floor` then `as i32`: the floor of the exact value (for a positive
denominator, `Int.fdiv` is floor division). -/
def Frac.floor (a : Frac) : Int := Int.fdiv a.num a.den

/-- `f32` values arising in the raycaster: an exact finite value, or `+∞`
(`f32::INFINITY`, the value of `1.0 / |d|` for a zero direction
component). -/
inductive F32 where
  | fin : Frac → F32
  | inf : F32
deriving DecidableEq, Repr

/-- `<` on `F32` (IEEE: `inf < inf` is false, `fin < inf` is true). -/
def F32.blt : F32 → F32 → Bool
  | .fin a, .fin b => a.blt b
  | .fin _, .inf => true
  | .inf, _ => false

/-- `≤` on `F32` (IEEE: `inf ≤ inf` is true, `inf ≤ fin` is false). -/
def F32.ble : F32 → F32 → Bool
  | .fin a, .fin b => a.ble b
  | .fin _, .inf => true
  | .inf, .inf => true
  | .inf, .fin _ => false

/-- Addition on `F32` (`inf` absorbs; only positive values arise here). -/
def F32.add : F32 → F32 → F32
  | .fin a, .fin b => .fin ⟨a.num * b.den + b.num * a.den, a.den * b.den⟩
  | _, _ => .inf

/-- The mutable state of the traversal loop: current voxel, accumulated
parametric distance `t`, the per-axis `t_max` values, and the last recorded
face normal. -/
structure RayState where
  vx : Int
  vy : Int
  vz : Int
  t : F32
  tmx : F32
  tmy : F32
  tmz : F32
  normal : Int × Int × Int
deriving DecidableEq, Repr

/-- One iteration of the traversal: step along whichever axis reaches its
next grid boundary soonest (`t_max_x < t_max_y && t_max_x < t_max_z`, then
`t_max_y < t_max_z`, else Z), advance that axis's `t_max` by its `t_delta`,
and record the outward normal as the negation of that axis's step. -/
def ray_step (stepx stepy stepz : Int) (tdx tdy tdz : F32) (s : RayState) : RayState :=
  if F32.blt s.tmx s.tmy && F32.blt s.tmx s.tmz then
    { s with vx := s.vx + stepx, t := s.tmx, tmx := s.tmx.add tdx, normal := (-stepx, 0, 0) }
  else if F32.blt s.tmy s.tmz then
    { s with vy := s.vy + stepy, t := s.tmy, tmy := s.tmy.add tdy, normal := (0, -stepy, 0) }
  else
    { s with vz := s.vz + stepz, t := s.tmz, tmz := s.tmz.add tdz, normal := (0, 0, -stepz) }

/-- The `while t <= max_dist` loop: step, test the newly entered voxel, and
return the first solid hit.  The fuel bound only matters beyond the point
where the loop would have exited; the theorems evaluate runs whose hit
occurs well before the fuel runs out. -/
def ray_loop (w : World) (stepx stepy stepz : Int) (tdx tdy tdz : F32)
    (max_dist : Frac) : Nat → RayState → Option (Int × Int × Int × Block × (Int × Int × Int))
  | 0, _ => none
  | fuel + 1, s =>
    if F32.ble s.t (F32.fin max_dist) then
      let s2 := ray_step stepx stepy stepz tdx tdy tdz s
      let b := w.get_block s2.vx s2.vy s2.vz
      if b ≠ Block.Air then some (s2.vx, s2.vy, s2.vz, b, s2.normal)
      else ray_loop w stepx stepy stepz tdx tdy tdz max_dist fuel s2
    else none

/-- `World::raycast_first_solid(start, dir, max_dist)`: the Amanatides–Woo
setup (start voxel by flooring, per-axis step sign, `t_delta = 1/|dir|` with
`INFINITY` for zero components, initial `t_max` to the first boundary),
an immediate test of the start voxel (normal `(0,0,0)`), then the traversal
loop.  Sign tests on a `Frac` with positive denominator are sign tests on
its numerator. -/
def raycast_first_solid (w : World) (start_x start_y start_z dir_x dir_y dir_z : Frac)
    (max_dist : Frac) (fuel : Nat) : Option (Int × Int × Int × Block × (Int × Int × Int)) :=
  if dir_x.num = 0 ∧ dir_y.num = 0 ∧ dir_z.num = 0 then none
  else
    let vx : Int := start_x.floor
    let vy : Int := start_y.floor
    let vz : Int := start_z.floor
    let step_x : Int := if 0 < dir_x.num then 1 else if dir_x.num < 0 then -1 else 0
    let step_y : Int := if 0 < dir_y.num then 1 else if dir_y.num < 0 then -1 else 0
    let step_z : Int := if 0 < dir_z.num then 1 else if dir_z.num < 0 then -1 else 0
    let inv_x : F32 := if dir_x.num ≠ 0 then .fin dir_x.invAbs else .inf
    let inv_y : F32 := if dir_y.num ≠ 0 then .fin dir_y.invAbs else .inf
    let inv_z : F32 := if dir_z.num ≠ 0 then .fin dir_z.invAbs else .inf
    let next_boundary_x : Frac := if step_x > 0 then .ofInt (vx + 1) else .ofInt vx
    let next_boundary_y : Frac := if step_y > 0 then .ofInt (vy + 1) else .ofInt vy
    let next_boundary_z : Frac := if step_z > 0 then .ofInt (vz + 1) else .ofInt vz
    let t_max_x : F32 :=
      if dir_x.num ≠ 0 then .fin (((next_boundary_x.sub start_x).fabs).mul dir_x.invAbs) else .inf
    let t_max_y : F32 :=
      if dir_y.num ≠ 0 then .fin (((next_boundary_y.sub start_y).fabs).mul dir_y.invAbs) else .inf
    let t_max_z : F32 :=
      if dir_z.num ≠ 0 then .fin (((next_boundary_z.sub start_z).fabs).mul dir_z.invAbs) else .inf
    let b0 := w.get_block vx vy vz
    if b0 ≠ Block.Air then some (vx, vy, vz, b0, (0, 0, 0))
    else
      ray_loop w step_x step_y step_z inv_x inv_y inv_z max_dist fuel
        { vx := vx, vy := vy, vz := vz, t := .fin (.ofInt 0),
          tmx := t_max_x, tmy := t_max_y, tmz := t_max_z, normal := (0, 0, 0) }

/-- The world for C6: its only non-Air block is `Stone` at voxel `(3,1,8)`. -/
def wRay : World :=
  { age_ticks := 0
    chunks := fun cp =>
      if cp = ⟨0, 0, 0⟩ then
        some { pos := ⟨0, 0, 0⟩
               blocks := fun i => if i = idx 3 1 8 then Block.Stone else Block.Air
               dirty := true }
      else none }

set_option synthInstance.maxSize 512 in
/-- **C6.** In `wRay` (only solid block: `Stone` at `(3,1,8)`), casting from
`(3.5, 1.5, 20)` along `(0, 0, -1)` with max distance 20 hits voxel
`(3,1,8)` carrying that block with face normal `(0,0,1)`; and on every
traversal step, the recorded normal is the negation of the step the voxel
took on the stepped axis (`new - old` position delta). -/
theorem raycast_scenario_and_normal :
    raycast_first_solid wRay ⟨7, 2⟩ ⟨3, 2⟩ ⟨20, 1⟩ ⟨0, 1⟩ ⟨0, 1⟩ ⟨-1, 1⟩ ⟨20, 1⟩ 100
      = some (3, 1, 8, Block.Stone, (0, 0, 1)) ∧
    ∀ (stepx stepy stepz : Int) (tdx tdy tdz : F32) (s : RayState),
      (ray_step stepx stepy stepz tdx tdy tdz s).normal =
        (s.vx - (ray_step stepx stepy stepz tdx tdy tdz s).vx,
         s.vy - (ray_step stepx stepy stepz tdx tdy tdz s).vy,
         s.vz - (ray_step stepx stepy stepz tdx tdy tdz s).vz) := by
  constructor
  · decide
  · intro stepx stepy stepz tdx tdy tdz s
    unfold ray_step
    split
    · simp only
      rw [show s.vx - (s.vx + stepx) = -stepx from by omega]
      simp
    · split
      · simp only
        rw [show s.vy - (s.vy + stepy) = -stepy from by omega]
        simp
      · simp only
        rw [show s.vz - (s.vz + stepz) = -stepz from by omega]
        simp

/-! ## Chunk streaming window (src/game.rs, `maintain_chunk_window`) -/

/-- Modelled from the spec: `World::ensure_chunk(pos)` is called by
`Game::maintain_chunk_window` (src/game.rs) but its definition is not among
the provided sources.  Per spec §4.1/§4.2: ensure the chunk exists, creating
it if absent; when a chunk is newly created, mark all six axis-aligned
neighbors dirty (so boundary faces against the new chunk are recomputed). -/
def World.ensure_chunk (w : World) (cp : ChunkPos) : World :=
  match w.chunks cp with
  | some _ => w
  | none =>
    let w1 : World :=
      { w with chunks := fun p => if p = cp then some (Chunk.new cp) else w.chunks p }
    let w2 := w1.mark_dirty ⟨cp.cx + 1, cp.cy, cp.cz⟩
    let w3 := w2.mark_dirty ⟨cp.cx - 1, cp.cy, cp.cz⟩
    let w4 := w3.mark_dirty ⟨cp.cx, cp.cy + 1, cp.cz⟩
    let w5 := w4.mark_dirty ⟨cp.cx, cp.cy - 1, cp.cz⟩
    let w6 := w5.mark_dirty ⟨cp.cx, cp.cy, cp.cz + 1⟩
    w6.mark_dirty ⟨cp.cx, cp.cy, cp.cz - 1⟩

/-- Modelled from the spec: `World::unload_chunk(pos) -> bool` (§4.1) removes
the chunk from the map, reporting whether it was present. -/
def World.unload_chunk (w : World) (cp : ChunkPos) : World × Bool :=
  match w.chunks cp with
  | some _ => ({ w with chunks := fun p => if p = cp then none else w.chunks p }, true)
  | none => (w, false)

/-- The inclusive integer range `a..=b` of the Rust for loops. -/
def intRange (a b : Int) : List Int :=
  (List.range (b + 1 - a).toNat).map fun (n : Nat) => a + (n : Int)

theorem intRange_mem {a b x : Int} : x ∈ intRange a b ↔ a ≤ x ∧ x ≤ b := by
  unfold intRange
  rw [List.mem_map]
  constructor
  · rintro ⟨n, hn, rfl⟩
    rw [List.mem_range] at hn
    omega
  · rintro ⟨h1, h2⟩
    refine ⟨(x - a).toNat, ?_, ?_⟩
    · rw [List.mem_range]; omega
    · omega

/-- `ensure_chunk` adds exactly its target to the loaded set. -/
theorem ensure_chunk_isSome (w : World) (cp p : ChunkPos) :
    ((w.ensure_chunk cp).chunks p).isSome = true ↔
      p = cp ∨ (w.chunks p).isSome = true := by
  unfold World.ensure_chunk
  cases hw : w.chunks cp with
  | some ch =>
    constructor
    · exact Or.inr
    · rintro (rfl | h)
      · rw [hw]; rfl
      · exact h
  | none =>
    dsimp only
    rw [mark_dirty_isSome, mark_dirty_isSome, mark_dirty_isSome, mark_dirty_isSome,
        mark_dirty_isSome, mark_dirty_isSome]
    by_cases hp : p = cp
    · simp [hp]
    · simp [hp]

/-- Folding `ensure_chunk` over a list adds exactly the list to the loaded
set. -/
theorem foldl_ensure_isSome (L : List ChunkPos) (w : World) (p : ChunkPos) :
    (((L.foldl (fun acc cp => acc.ensure_chunk cp) w).chunks p).isSome = true) ↔
      (p ∈ L ∨ (w.chunks p).isSome = true) := by
  induction L generalizing w with
  | nil => simp
  | cons a L ih =>
    simp only [List.foldl_cons, List.mem_cons]
    rw [ih, ensure_chunk_isSome]
    tauto

/-- `Game::maintain_chunk_window(radius)` (src/game.rs), modelled on the
world plus the player position.  The player chunk is the floored position
under `chunk_coord`.  The two nested `for dx/dz in -radius..=radius` loops
calling `ensure_chunk` are modelled as one fold over the dx × dz product
list (same ensure calls, same order).  The unload phase — the source
snapshots `chunk_positions()`, filters by `dx*dx + dz*dz > keep_sq ||
cy ≠ player.cy` and calls `unload_chunk` on each hit — is modelled by its
aggregate effect on the chunk map: exactly the positions satisfying the
predicate read back as absent, all others as before.  The per-chunk mesh
cache that `Game::unload_chunk` also clears is render state outside the
modelled world. -/
def maintain_chunk_window (w : World) (px py pz : Frac) (radius : Int) : World :=
  let player_chunk : ChunkPos :=
    ⟨chunk_coord px.floor, chunk_coord py.floor, chunk_coord pz.floor⟩
  let window : List ChunkPos :=
    (intRange (-radius) radius).bind fun dx =>
      (intRange (-radius) radius).map fun dz =>
        ⟨player_chunk.cx + dx, player_chunk.cy, player_chunk.cz + dz⟩
  let w1 := window.foldl (fun acc cp => acc.ensure_chunk cp) w
  let keep_sq := radius * radius
  { w1 with chunks := fun cp =>
      if (cp.cx - player_chunk.cx) * (cp.cx - player_chunk.cx) +
          (cp.cz - player_chunk.cz) * (cp.cz - player_chunk.cz) > keep_sq ∨
          cp.cy ≠ player_chunk.cy then none
      else w1.chunks cp }

/-- **C7** (amended: the window radius is non-negative, as in every call in
the game loop).  After `maintain_chunk_window`, a chunk is loaded exactly
when its horizontal squared chunk distance to the player chunk is at most
`R²` and it lies on the player's vertical chunk layer. -/
theorem maintain_chunk_window_presence (w : World) (px py pz : Frac) (R : Int)
    (hR : 0 ≤ R) (c : ChunkPos) :
    ((maintain_chunk_window w px py pz R).chunks c).isSome = true ↔
      ((c.cx - chunk_coord px.floor) ^ 2 + (c.cz - chunk_coord pz.floor) ^ 2 ≤ R ^ 2 ∧
        c.cy = chunk_coord py.floor) := by
  obtain ⟨ccx, ccy, ccz⟩ := c
  unfold maintain_chunk_window
  dsimp only
  by_cases hpred :
      (ccx - chunk_coord px.floor) * (ccx - chunk_coord px.floor) +
        (ccz - chunk_coord pz.floor) * (ccz - chunk_coord pz.floor) > R * R ∨
        ccy ≠ chunk_coord py.floor
  · rw [if_pos hpred]
    constructor
    · intro h; exact absurd h (by simp)
    · rintro ⟨hle, hcy⟩
      exfalso
      rcases hpred with hgt | hcyne
      · rw [pow_two, pow_two, pow_two] at hle
        linarith
      · exact hcyne hcy
  · rw [if_neg hpred]
    push_neg at hpred
    obtain ⟨hle, hcy⟩ := hpred
    rw [foldl_ensure_isSome]
    constructor
    · intro _
      exact ⟨by rw [pow_two, pow_two, pow_two]; linarith, hcy⟩
    · rintro ⟨hle2, hcy2⟩
      left
      rw [List.mem_bind]
      refine ⟨ccx - chunk_coord px.floor, intRange_mem.mpr ⟨?_, ?_⟩, ?_⟩
      · by_contra hlt
        push_neg at hlt
        nlinarith [sq_nonneg (ccz - chunk_coord pz.floor)]
      · by_contra hlt
        push_neg at hlt
        nlinarith [sq_nonneg (ccz - chunk_coord pz.floor)]
      · rw [List.mem_map]
        refine ⟨ccz - chunk_coord pz.floor, intRange_mem.mpr ⟨?_, ?_⟩, ?_⟩
        · by_contra hlt
          push_neg at hlt
          nlinarith [sq_nonneg (ccx - chunk_coord px.floor)]
        · by_contra hlt
          push_neg at hlt
          nlinarith [sq_nonneg (ccx - chunk_coord px.floor)]
        · simp only [ChunkPos.mk.injEq]
          exact ⟨by omega, hcy2.symm, by omega⟩

/-- Counterexample to C7 as stated (for *every* integer radius): with
radius `-1` on the empty world, the ensure loops `(-radius)..=radius` are
empty, yet the player chunk `(0,0,0)` itself satisfies the claimed
membership test (`0² + 0² ≤ (-1)² ∧ 0 = 0`), so the claimed "present iff
within the disk on the player layer" equivalence fails: the chunk is
absent. -/
theorem maintain_chunk_window_negative_radius :
    ((maintain_chunk_window wEmpty (.ofInt 0) (.ofInt 0) (.ofInt 0) (-1)).chunks
        ⟨0, 0, 0⟩).isSome = false ∧
    ((0 : Int) - chunk_coord (Frac.ofInt 0).floor) ^ 2 +
        ((0 : Int) - chunk_coord (Frac.ofInt 0).floor) ^ 2 ≤ (-1 : Int) ^ 2 ∧
    (0 : Int) = chunk_coord (Frac.ofInt 0).floor := by
  refine ⟨by decide, by decide, by decide⟩

/-- Witness for the amended C7: radius 2, player at the origin — chunk
`(2,0,0)` is present and chunk `(3,0,0)` is absent afterwards. -/
theorem maintain_chunk_window_presence_witness :
    ((maintain_chunk_window wEmpty (.ofInt 0) (.ofInt 0) (.ofInt 0) 2).chunks
        ⟨2, 0, 0⟩).isSome = true ∧
    ((maintain_chunk_window wEmpty (.ofInt 0) (.ofInt 0) (.ofInt 0) 2).chunks
        ⟨3, 0, 0⟩).isSome = false := by
  constructor
  · exact (maintain_chunk_window_presence wEmpty (.ofInt 0) (.ofInt 0) (.ofInt 0) 2
      (by norm_num) ⟨2, 0, 0⟩).mpr (by decide)
  · have h := maintain_chunk_window_presence wEmpty (.ofInt 0) (.ofInt 0) (.ofInt 0) 2
      (by norm_num) ⟨3, 0, 0⟩
    rcases Bool.eq_false_or_eq_true
        (((maintain_chunk_window wEmpty (.ofInt 0) (.ofInt 0) (.ofInt 0) 2).chunks
          ⟨3, 0, 0⟩).isSome) with hb | hb
    · exact absurd (h.mp hb) (by decide)
    · exact hb
